import Mathlib

/-!
Verification of the hydrosheds point-in-water query engine.

The definitions below are a shallow embedding of the C++ sources:
  - `include/hydrosheds/tile_cache.hpp`, `src/tile_cache.cpp` (the LRU tile cache),
  - `include/hydrosheds/bbox.hpp` (bounding boxes),
  - `src/dataset.cpp` (bounding-box routing, pixel-index computation,
    per-raster query and tile loading),
  - `include/hydrosheds/parallel_for.hpp` (chunked dispatch).

Machine doubles are modelled as rationals: every finite double is a
rational, and the claims settled here concern conversion modes and
control flow, not rounding of individual arithmetic operations.
Undefined behaviour (reading the back of an empty `std::list`, integer
division by zero, a `static_cast` of an unrepresentable value) is
modelled as `Option.none` / an error value.
-/

namespace Hydrosheds

/-- `TileKey = std::tuple<int,int>` from tile_cache.hpp.  The engine only
ever builds keys from (nonnegative) `size_t` tile indices, so keys are
modelled as pairs of naturals. -/
abbrev TileKey := Nat × Nat

/-- A tile is the decoded byte buffer (`std::vector<char>`). -/
abbrev Tile := List Int

/-- Lookup in the association list that models `std::unordered_map
<TileKey, std::vector<char>> tile_map_`.  The physical order of entries
in the list is irrelevant: only `lookupTile` is observable. -/
def lookupTile : List (TileKey × Tile) → TileKey → Option Tile
  | [], _ => none
  | (k, v) :: rest, key => if k = key then some v else lookupTile rest key

/-- `tile_map_.find(key) != tile_map_.end()`. -/
def containsKey (m : List (TileKey × Tile)) (k : TileKey) : Bool :=
  (lookupTile m k).isSome

/-- `tile_map_.erase(key)`: removes the (unique) binding of `key`. -/
def eraseKey : List (TileKey × Tile) → TileKey → List (TileKey × Tile)
  | [], _ => []
  | (k, v) :: rest, key => if k = key then rest else (k, v) :: eraseKey rest key

/-- Replace the value stored under `k` (no-op on keys other than `k`). -/
def updateKey : List (TileKey × Tile) → TileKey → Tile → List (TileKey × Tile)
  | [], _, _ => []
  | (k', v') :: rest, k, v =>
    if k' = k then (k, v) :: updateKey rest k v
    else (k', v') :: updateKey rest k v

/-- `tile_map_[key] = v`: update in place when present, insert otherwise. -/
def setTile (m : List (TileKey × Tile)) (k : TileKey) (v : Tile) :
    List (TileKey × Tile) :=
  if containsKey m k then updateKey m k v else m ++ [(k, v)]

/-- The keys of the map. -/
def keysOf (m : List (TileKey × Tile)) : List TileKey := m.map Prod.fst

/-- `access_order_.remove(key)`: `std::list::remove` deletes every
element equal to `key`. -/
def removeAll (l : List TileKey) (k : TileKey) : List TileKey :=
  l.filter (fun x => decide (x ≠ k))

/-- The `TileCache` class: capacity fixed at construction, a map of
tiles and the recency list (`access_order_`, most recently used at the
front). -/
structure TileCache where
  max_tiles : Nat
  tile_map : List (TileKey × Tile)
  access_order : List TileKey
deriving DecidableEq

/-- `TileCache(max_tiles)`: a freshly constructed cache. -/
def emptyCache (cap : Nat) : TileCache := ⟨cap, [], []⟩

/-- `TileCache::is_tile_in_cache`. -/
def is_tile_in_cache (c : TileCache) (k : TileKey) : Bool :=
  containsKey c.tile_map k

/-- `TileCache::get_tile_from_cache`:
`access_order_.remove(key); access_order_.push_front(key); return tile_map_[key];`.
`operator[]` default-inserts an empty vector when the key is absent. -/
def get_tile_from_cache (c : TileCache) (k : TileKey) : Tile × TileCache :=
  let ao := k :: removeAll c.access_order k
  match lookupTile c.tile_map k with
  | some v => (v, ⟨c.max_tiles, c.tile_map, ao⟩)
  | none => ([], ⟨c.max_tiles, setTile c.tile_map k [], ao⟩)

/-- `TileCache::add_tile_to_cache` (tile_cache.cpp): when
`tile_map_.size() >= max_tiles_` it pops the back of `access_order_`
and erases that key, then stores the tile and pushes `key` to the
front.  Reading the back of an empty recency list is undefined
behaviour, modelled as `none`. -/
def add_tile_to_cache (c : TileCache) (k : TileKey) (v : Tile) :
    Option TileCache :=
  if c.max_tiles ≤ c.tile_map.length then
    match c.access_order.getLast? with
    | none => none
    | some dk =>
        some ⟨c.max_tiles, setTile (eraseKey c.tile_map dk) k v,
              k :: c.access_order.dropLast⟩
  else
    some ⟨c.max_tiles, setTile c.tile_map k v, k :: c.access_order⟩

/-- `BBox` (bbox.hpp), built from a geotransform and pixel extents:
`min_x = g0`, `max_x = g0 + g1*w`, `min_y = g3 + g5*h`, `max_y = g3`. -/
structure BBox where
  min_x : ℚ
  max_x : ℚ
  min_y : ℚ
  max_y : ℚ

/-- `BBox::BBox(geotransform, x_size, y_size)`. -/
def BBox.ofGeotransform (g0 g1 g3 g5 : ℚ) (x_size y_size : Nat) : BBox :=
  ⟨g0, g0 + g1 * x_size, g3 + g5 * y_size, g3⟩

/-- `BBox::contains`:
`lon >= min_x_ && lon <= max_x_ && lat >= min_y_ && lat <= max_y_`. -/
def BBox.contains (b : BBox) (lon lat : ℚ) : Bool :=
  decide (b.min_x ≤ lon) && decide (lon ≤ b.max_x) &&
    decide (b.min_y ≤ lat) && decide (lat ≤ b.max_y)

/-- One entry of the per-worker `DatsetCache` collection, as seen by the
routing loop `Dataset::is_water(double, double, std::vector<DatsetCache>&)`:
a bounding box and the per-raster point query.  The per-raster query is
abstracted as a function of the point only (`none` = the per-raster call
throws); `claim9_cache_transparent` proves that the per-raster query
result is indeed independent of the mutable tile-cache state. -/
structure Raster where
  bbox : BBox
  query : ℚ → ℚ → Option Bool

/-- The routing loop (dataset.cpp lines 100-111): scan the rasters in
declaration order; skip rasters whose box does not contain the point;
return `true` at the first containing raster whose mask says water,
otherwise keep scanning; return `false` when the scan falls off the
end.  A per-raster exception (`none`) propagates. -/
def is_water_point : List Raster → ℚ → ℚ → Option Bool
  | [], _, _ => some false
  | r :: rest, lon, lat =>
    if r.bbox.contains lon lat then
      (r.query lon lat).bind fun b =>
        if b then some true else is_water_point rest lon lat
    else is_water_point rest lon lat

/-- `static_cast<size_t>(q)` for a double value `q`: truncation toward
zero; undefined behaviour when the truncated value is not representable
(`q ≤ -1` or `q ≥ 2^64`).  For `-1 < q < 0` the truncated value is `0`,
which `Int.toNat ∘ Int.floor` also yields. -/
def castToSizeT (q : ℚ) : Option Nat :=
  if q ≤ -1 then none
  else if (2 ^ 64 : ℚ) ≤ q then none
  else some (Int.toNat ⌊q⌋)

/-- The pixel-index computation of dataset.cpp lines 123-124:
`static_cast<size_t>((coord - g_offset) / g_scale)`. -/
def pixelIndex (coord g_offset g_scale : ℚ) : Option Nat :=
  castToSizeT ((coord - g_offset) / g_scale)

/-- The immutable per-raster state consulted by the single-raster query
(`DatasetInfo`): the reprojection transform and the block reader are
external collaborators (GDAL), modelled as abstract functions; `none`
models the backend call failing. -/
structure RasterInfo where
  transform : ℚ → ℚ → Option (ℚ × ℚ)
  g0 : ℚ
  g1 : ℚ
  g3 : ℚ
  g5 : ℚ
  x_size : Nat
  y_size : Nat
  readBlock : Nat → Nat → Nat → Nat → Option Tile

/-- The tile-producing part of `Dataset::load_tile_cache`: offsets,
clamped sizes, the out-of-bounds check, and the guarded `RasterIO`
read.  (`x_size - x_offset` is `size_t` arithmetic; it can wrap in C++,
but only when `x_offset >= x_size`, in which case the bounds check
throws before the wrapped value is ever used, so truncated `Nat`
subtraction is faithful here.) -/
def loadTileData (ts : Nat) (info : RasterInfo) (key : TileKey) : Option Tile :=
  let x_offset := key.1 * ts
  let y_offset := key.2 * ts
  let xs := min ts (info.x_size - x_offset)
  let ys := min ts (info.y_size - y_offset)
  if info.x_size ≤ x_offset ∨ info.y_size ≤ y_offset ∨
      info.x_size < x_offset + xs ∨ info.y_size < y_offset + ys then
    none
  else
    info.readBlock x_offset y_offset xs ys

/-- `Dataset::load_tile_cache`: read the tile, then insert it into the
worker's cache. -/
def load_tile_cache (ts : Nat) (info : RasterInfo) (key : TileKey)
    (c : TileCache) : Option TileCache :=
  match loadTileData ts info key with
  | none => none
  | some t => add_tile_to_cache c key t

/-- Both pixel indices, in the order the code computes them. -/
def pixelPos (info : RasterInfo) (x y : ℚ) : Option (Nat × Nat) :=
  match pixelIndex x info.g0 info.g1, pixelIndex y info.g3 info.g5 with
  | some px, some py => some (px, py)
  | _, _ => none

/-- `Dataset::is_water(double, double, DatsetCache&)` (dataset.cpp lines
113-145): reproject, compute pixel indices, derive the tile key, load
the tile on a cache miss, fetch it from the cache, and test the byte at
the in-tile offset against `1`.  A zero `tile_size_` would make the
`size_t` divisions undefined, modelled as `none`; an out-of-range byte
access (`operator[]`) is likewise modelled as `none`. -/
def is_water_raster (ts : Nat) (info : RasterInfo) (lon lat : ℚ)
    (c : TileCache) : Option (Bool × TileCache) :=
  (info.transform lon lat).bind fun xy =>
    (pixelPos info xy.1 xy.2).bind fun p =>
      if ts = 0 then none
      else
        (if is_tile_in_cache c (p.1 / ts, p.2 / ts) then some c
         else load_tile_cache ts info (p.1 / ts, p.2 / ts) c).bind fun c1 =>
          let tc := get_tile_from_cache c1 (p.1 / ts, p.2 / ts)
          (tc.1[p.2 % ts * ts + p.1 % ts]?).map fun b => (b == 1, tc.2)

/-- The cache-free specification of the single-raster query: the result
the query produces, as a function of the point, the raster, and the
configured cache capacity alone.  With capacity `0` every query fails
(the insertion after the unavoidable miss reads the back of the empty
recency list); otherwise the byte comes from a fresh tile read. -/
def querySpec (ts : Nat) (info : RasterInfo) (cap : Nat) (lon lat : ℚ) :
    Option Bool :=
  (info.transform lon lat).bind fun xy =>
    (pixelPos info xy.1 xy.2).bind fun p =>
      if ts = 0 then none
      else if cap = 0 then none
      else
        (loadTileData ts info (p.1 / ts, p.2 / ts)).bind fun t =>
          (t[p.2 % ts * ts + p.1 % ts]?).map fun b => b == 1

/-- Failures of the dispatcher: the division by zero in
`size / num_threads`, or a worker exception re-raised after the join. -/
inductive PFErr where
  | divByZero
  | workerExn
deriving DecidableEq

/-- The chunk loop of `parallel_for`: chunk `ix` covers
`[ix*shift, (ix+1)*shift)`, the last chunk instead ends at `size`.
Workers write disjoint index ranges of the result, so running them in
chunk order is observationally the concurrent execution; a worker
exception aborts the remaining model run (the real dispatcher lets the
other workers finish but discards their writes by rethrowing). -/
def chunkFold (w : Nat → Nat → α → Option α) (size shift n : Nat) :
    List Nat → α → Option α
  | [], acc => some acc
  | ix :: rest, acc =>
    match w (ix * shift) (if ix = n - 1 then size else (ix + 1) * shift) acc with
    | none => none
    | some acc' => chunkFold w size shift n rest acc'

/-- `parallel_for` (parallel_for.hpp): `num_threads == 1` runs the
worker synchronously; `num_threads == 0` substitutes the hardware
concurrency `hc` (itself possibly `0`); the thread count is clamped to
`min(num_threads, size)`; then `shift = size / num_threads` — a
division by zero whenever the clamped count is `0`. -/
def parallel_for (w : Nat → Nat → α → Option α) (size nt hc : Nat)
    (init : α) : Except PFErr α :=
  if nt = 1 then
    match w 0 size init with
    | some r => Except.ok r
    | none => Except.error PFErr.workerExn
  else
    let n2 := min (if nt = 0 then hc else nt) size
    if n2 = 0 then Except.error PFErr.divByZero
    else
      match chunkFold w size (size / n2) n2 (List.range n2) init with
      | some r => Except.ok r
      | none => Except.error PFErr.workerExn

/-- The worker body of `Dataset::is_water(lon, lat, num_threads)`:
`for (ix = start; ix < end; ix++) result(ix) = is_water(lon(ix), lat(ix), cache);`
over the explicit index list.  The per-point query is abstracted as a
pure function `q` of the coordinates (its cache-independence is
`claim9_cache_transparent`). -/
def writeRange (q : ℚ → ℚ → Option Bool) (lon lat : List ℚ) :
    List Nat → List Bool → Option (List Bool)
  | [], r => some r
  | ix :: rest, r =>
    match q (lon.getD ix 0) (lat.getD ix 0) with
    | none => none
    | some b => writeRange q lon lat rest (r.set ix b)

/-- A worker's contiguous chunk `[s, e)`. -/
def batchWorker (q : ℚ → ℚ → Option Bool) (lon lat : List ℚ)
    (s e : Nat) (r : List Bool) : Option (List Bool) :=
  writeRange q lon lat (List.range' s (e - s)) r

/-- Errors of the batch entry point. -/
inductive BatchErr where
  | sizeMismatch
  | dispatchFailure
deriving DecidableEq

/-- `result = VectorBool(lon.size()); result.setZero();` — one slot per
input point, initialized to `false`. -/
def allocResult (n : Nat) : List Bool := List.replicate n false

/-- `Dataset::is_water(lon, lat, num_threads)` (dataset.cpp lines
82-98): the size check comes first — before any allocation or dispatch —
then the zero-initialized result vector is allocated and the workers
are dispatched over it. -/
def is_water_batch (q : ℚ → ℚ → Option Bool) (lon lat : List ℚ)
    (nt hc : Nat) : Except BatchErr (List Bool) :=
  if lon.length ≠ lat.length then Except.error BatchErr.sizeMismatch
  else
    match parallel_for (batchWorker q lon lat) lon.length nt hc
        (allocResult lon.length) with
    | Except.ok r => Except.ok r
    | Except.error _ => Except.error BatchErr.dispatchFailure

/-- The observable tile-cache operations. -/
inductive CacheOp where
  | containsOp (k : TileKey)
  | get (k : TileKey)
  | put (k : TileKey) (v : Tile)

/-- One cache operation as a state transition (`containsOp` is `const`,
`get` mutates only the recency order / possibly default-inserts, `put`
may be undefined behaviour). -/
def step (c : TileCache) : CacheOp → Option TileCache
  | CacheOp.containsOp _ => some c
  | CacheOp.get k => some (get_tile_from_cache c k).2
  | CacheOp.put k v => add_tile_to_cache c k v

/-- Run a sequence of cache operations. -/
def runFrom (c : TileCache) : List CacheOp → Option TileCache
  | [] => some c
  | op :: rest =>
    match step c op with
    | none => none
    | some c' => runFrom c' rest

/-- The usage discipline the query engine follows: `put` only for keys
not in the cache (it loads only on a miss), `get` only for keys in the
cache (it loads first). -/
def disciplined (c : TileCache) : List CacheOp → Bool
  | [] => true
  | CacheOp.containsOp _ :: rest => disciplined c rest
  | CacheOp.get k :: rest =>
    is_tile_in_cache c k && disciplined (get_tile_from_cache c k).2 rest
  | CacheOp.put k v :: rest =>
    !is_tile_in_cache c k &&
      (match add_tile_to_cache c k v with
       | some c' => disciplined c' rest
       | none => false)

/-- Loading a sequence of tiles: one `put` per key. -/
def putOps (ks : List TileKey) : List CacheOp :=
  ks.map (fun k => CacheOp.put k [])

/-- The structural cache invariant: the map never exceeds the capacity,
the recency list is a permutation of the map's keys, and the keys are
distinct. -/
def CacheInv (c : TileCache) : Prop :=
  c.tile_map.length ≤ c.max_tiles ∧
    c.access_order.Perm (keysOf c.tile_map) ∧ (keysOf c.tile_map).Nodup

/-- Every tile stored in the cache is the tile a fresh load would
produce for its key: the semantic invariant behind cache transparency. -/
def ValInv (ts : Nat) (info : RasterInfo) (c : TileCache) : Prop :=
  ∀ k t, lookupTile c.tile_map k = some t → loadTileData ts info k = some t

/-- A trivial per-point query used to exercise the batch entry point on
concrete inputs. -/
def constFalseQuery : ℚ → ℚ → Option Bool := fun _ _ => some false

/-- A tiny concrete raster (identity transform, unit geotransform, a
4x4 extent, one water pixel in each read block) used to exercise the
per-raster query on concrete inputs. -/
def infoW : RasterInfo :=
  ⟨fun a b => some (a, b), 0, 1, 0, 1, 4, 4, fun _ _ _ _ => some [1, 0, 0, 0]⟩

/-- A concrete cache already holding the tile that `infoW` would load
for key `(0, 0)` with tile size 2. -/
def cacheW : TileCache := ⟨4, [((0, 0), [1, 0, 0, 0])], [(0, 0)]⟩

/-! ### Association-map lemmas -/

theorem lookupTile_updateKey_self (m : List (TileKey × Tile)) (k : TileKey)
    (v : Tile) (h : containsKey m k = true) :
    lookupTile (updateKey m k v) k = some v := by
  induction m with
  | nil => simp [containsKey, lookupTile] at h
  | cons p rest ih =>
    rcases p with ⟨a, b⟩
    by_cases hp : a = k
    · simp [updateKey, hp, lookupTile]
    · simp only [updateKey, if_neg hp, lookupTile, if_neg hp]
      exact ih (by simpa [containsKey, lookupTile, hp] using h)

theorem lookupTile_updateKey_ne (m : List (TileKey × Tile)) (k : TileKey)
    (v : Tile) (k' : TileKey) (h : k' ≠ k) :
    lookupTile (updateKey m k v) k' = lookupTile m k' := by
  induction m with
  | nil => simp [updateKey]
  | cons p rest ih =>
    rcases p with ⟨a, b⟩
    by_cases hp : a = k
    · have hak : ¬ a = k' := fun hh => h (by rw [← hh, hp])
      simp only [updateKey, if_pos hp, lookupTile,
        if_neg (fun hh : k = k' => h hh.symm), if_neg hak]
      exact ih
    · by_cases hp' : a = k'
      · simp only [updateKey, if_neg hp, lookupTile, if_pos hp']
      · simp only [updateKey, if_neg hp, lookupTile, if_neg hp']
        exact ih

theorem lookupTile_append_self (m : List (TileKey × Tile)) (k : TileKey)
    (v : Tile) (h : containsKey m k = false) :
    lookupTile (m ++ [(k, v)]) k = some v := by
  induction m with
  | nil => simp [lookupTile]
  | cons p rest ih =>
    rcases p with ⟨a, b⟩
    have hp : a ≠ k := by
      intro hk
      simp [containsKey, lookupTile, hk] at h
    simp only [List.cons_append, lookupTile, if_neg hp]
    exact ih (by simpa [containsKey, lookupTile, hp] using h)

theorem lookupTile_append_ne (m : List (TileKey × Tile)) (k : TileKey)
    (v : Tile) (k' : TileKey) (h : k' ≠ k) :
    lookupTile (m ++ [(k, v)]) k' = lookupTile m k' := by
  induction m with
  | nil => simp [lookupTile, if_neg (Ne.symm h)]
  | cons p rest ih =>
    rcases p with ⟨a, b⟩
    by_cases hp' : a = k'
    · simp [lookupTile, hp']
    · simp only [List.cons_append, lookupTile, if_neg hp']
      exact ih

theorem lookupTile_setTile_self (m : List (TileKey × Tile)) (k : TileKey)
    (v : Tile) : lookupTile (setTile m k v) k = some v := by
  unfold setTile
  by_cases h : containsKey m k
  · rw [if_pos h]
    exact lookupTile_updateKey_self m k v h
  · rw [if_neg h]
    exact lookupTile_append_self m k v (by simpa using h)

theorem lookupTile_setTile_ne (m : List (TileKey × Tile)) (k : TileKey)
    (v : Tile) (k' : TileKey) (h : k' ≠ k) :
    lookupTile (setTile m k v) k' = lookupTile m k' := by
  unfold setTile
  by_cases hc : containsKey m k
  · rw [if_pos hc]
    exact lookupTile_updateKey_ne m k v k' h
  · rw [if_neg hc]
    exact lookupTile_append_ne m k v k' h

theorem containsKey_iff_mem (m : List (TileKey × Tile)) (k : TileKey) :
    containsKey m k = true ↔ k ∈ keysOf m := by
  induction m with
  | nil => simp [containsKey, lookupTile, keysOf]
  | cons p rest ih =>
    rcases p with ⟨a, b⟩
    by_cases hp : a = k
    · simp [containsKey, lookupTile, hp, keysOf]
    · simpa [containsKey, lookupTile, hp, keysOf, Ne.symm hp] using ih

theorem keysOf_updateKey (m : List (TileKey × Tile)) (k : TileKey)
    (v : Tile) : keysOf (updateKey m k v) = keysOf m := by
  induction m with
  | nil => rfl
  | cons p rest ih =>
    rcases p with ⟨a, b⟩
    by_cases hp : a = k
    · subst hp
      simp only [updateKey, if_pos rfl, keysOf, List.map_cons]
      exact congrArg _ ih
    · simp only [updateKey, if_neg hp, keysOf, List.map_cons]
      exact congrArg _ ih

theorem keysOf_setTile (m : List (TileKey × Tile)) (k : TileKey) (v : Tile) :
    keysOf (setTile m k v) =
      if containsKey m k then keysOf m else keysOf m ++ [k] := by
  unfold setTile
  by_cases h : containsKey m k
  · rw [if_pos h, if_pos h, keysOf_updateKey]
  · rw [if_neg h, if_neg h]
    simp [keysOf]

theorem keysOf_eraseKey (m : List (TileKey × Tile)) (k : TileKey) :
    keysOf (eraseKey m k) = (keysOf m).erase k := by
  induction m with
  | nil => rfl
  | cons p rest ih =>
    rcases p with ⟨a, b⟩
    by_cases hp : a = k
    · subst hp
      simp [eraseKey, keysOf, List.erase_cons_head]
    · simp only [eraseKey, if_neg hp, keysOf, List.map_cons]
      rw [List.erase_cons_tail (by simpa using hp)]
      exact congrArg _ ih

theorem lookupTile_eraseKey_ne (m : List (TileKey × Tile)) (dk k : TileKey)
    (h : k ≠ dk) : lookupTile (eraseKey m dk) k = lookupTile m k := by
  induction m with
  | nil => simp [eraseKey]
  | cons p rest ih =>
    rcases p with ⟨a, b⟩
    by_cases hp : a = dk
    · subst hp
      have h1 : eraseKey ((a, b) :: rest) a = rest := by
        simp [eraseKey]
      rw [h1]
      simp only [lookupTile]
      rw [if_neg (Ne.symm h)]
    · simp only [eraseKey, if_neg hp, lookupTile]
      by_cases hp' : a = k
      · rw [if_pos hp', if_pos hp']
      · rw [if_neg hp', if_neg hp']
        exact ih

theorem lookupTile_none_of_not_mem (m : List (TileKey × Tile)) (k : TileKey)
    (h : k ∉ keysOf m) : lookupTile m k = none := by
  cases hl : lookupTile m k with
  | none => rfl
  | some t =>
    exact absurd ((containsKey_iff_mem m k).mp (by simp [containsKey, hl])) h

theorem lookupTile_eraseKey_self (m : List (TileKey × Tile)) (dk : TileKey)
    (h : (keysOf m).Nodup) : lookupTile (eraseKey m dk) dk = none := by
  apply lookupTile_none_of_not_mem
  rw [keysOf_eraseKey]
  exact List.Nodup.not_mem_erase h

theorem length_updateKey (m : List (TileKey × Tile)) (k : TileKey)
    (v : Tile) : (updateKey m k v).length = m.length := by
  induction m with
  | nil => rfl
  | cons p rest ih =>
    rcases p with ⟨a, b⟩
    by_cases hp : a = k
    · simp only [updateKey, if_pos hp, List.length_cons, ih]
    · simp only [updateKey, if_neg hp, List.length_cons, ih]

theorem length_setTile (m : List (TileKey × Tile)) (k : TileKey) (v : Tile) :
    (setTile m k v).length =
      if containsKey m k then m.length else m.length + 1 := by
  unfold setTile
  by_cases h : containsKey m k
  · rw [if_pos h, if_pos h, length_updateKey]
  · rw [if_neg h, if_neg h]
    simp

theorem length_eraseKey (m : List (TileKey × Tile)) (k : TileKey) :
    (eraseKey m k).length =
      if containsKey m k then m.length - 1 else m.length := by
  induction m with
  | nil => simp [eraseKey, containsKey, lookupTile]
  | cons p rest ih =>
    rcases p with ⟨a, b⟩
    by_cases hp : a = k
    · simp [eraseKey, hp, containsKey, lookupTile]
    · have hcc : containsKey ((a, b) :: rest) k = containsKey rest k := by
        simp [containsKey, lookupTile, hp]
      simp only [eraseKey, if_neg hp, List.length_cons]
      rw [hcc, ih]
      by_cases hc : containsKey rest k
      · have h1 : 1 ≤ rest.length := by
          rcases rest with _ | ⟨q, t⟩
          · simp [containsKey, lookupTile] at hc
          · simp
        simp only [hc, ite_true]
        omega
      · simp [hc]

theorem nodup_keysOf_setTile (m : List (TileKey × Tile)) (k : TileKey)
    (v : Tile) (h : (keysOf m).Nodup) : (keysOf (setTile m k v)).Nodup := by
  rw [keysOf_setTile]
  split
  · exact h
  case isFalse hc =>
    rw [List.nodup_append]
    refine ⟨h, List.nodup_singleton k, ?_⟩
    intro a ha hb
    simp only [List.mem_singleton] at hb
    subst hb
    exact hc ((containsKey_iff_mem m a).mpr ha)

theorem nodup_keysOf_eraseKey (m : List (TileKey × Tile)) (k : TileKey)
    (h : (keysOf m).Nodup) : (keysOf (eraseKey m k)).Nodup := by
  rw [keysOf_eraseKey]
  exact h.erase k

/-! ### Recency-list lemmas -/

theorem removeAll_eq_of_not_mem (l : List TileKey) (k : TileKey)
    (h : k ∉ l) : removeAll l k = l := by
  induction l with
  | nil => rfl
  | cons a t ih =>
    have ha : a ≠ k := fun hk => h (by simp [hk])
    simp only [removeAll, List.filter_cons, decide_eq_true_eq]
    rw [if_pos ha]
    exact congrArg (a :: ·) (ih (fun hk => h (List.mem_cons_of_mem a hk)))

theorem removeAll_cons_self (t : List TileKey) (k : TileKey) :
    removeAll (k :: t) k = removeAll t k := by
  simp [removeAll]

theorem removeAll_cons_ne (t : List TileKey) (a k : TileKey) (h : a ≠ k) :
    removeAll (a :: t) k = a :: removeAll t k := by
  simp [removeAll, h]

theorem cons_removeAll_perm (l : List TileKey) (k : TileKey)
    (hnd : l.Nodup) (hk : k ∈ l) : (k :: removeAll l k).Perm l := by
  induction l with
  | nil => cases hk
  | cons a t ih =>
    rcases List.mem_cons.mp hk with rfl | hkt
    · rw [removeAll_cons_self,
        removeAll_eq_of_not_mem t k (List.nodup_cons.mp hnd).1]
    · have ha : a ≠ k := by
        rintro rfl
        exact (List.nodup_cons.mp hnd).1 hkt
      rw [removeAll_cons_ne t a k ha]
      exact (List.Perm.swap a k (removeAll t k)).trans
        (List.Perm.cons a (ih (List.nodup_cons.mp hnd).2 hkt))

/-! ### Generic list helpers (instance-stable versions of erase facts) -/

theorem perm_erase_of_perm {α : Type} [BEq α] [LawfulBEq α] (a : α)
    {l₁ l₂ : List α} (h : l₁.Perm l₂) : (l₁.erase a).Perm (l₂.erase a) := by
  induction h with
  | nil => simp
  | cons x h ih =>
    rw [List.erase_cons, List.erase_cons]
    cases hxa : x == a
    · simpa [hxa] using ih.cons x
    · simpa [hxa] using h
  | swap x y l =>
    by_cases hxa : x = a
    · by_cases hya : y = a
      · subst hxa
        subst hya
        exact List.Perm.refl _
      · subst hxa
        rw [List.erase_cons_tail (by simpa using hya), List.erase_cons_head,
          List.erase_cons_head]
    · by_cases hya : y = a
      · subst hya
        rw [List.erase_cons_head, List.erase_cons_tail (by simpa using hxa),
          List.erase_cons_head]
      · rw [List.erase_cons_tail (by simpa using hya),
          List.erase_cons_tail (by simpa using hxa),
          List.erase_cons_tail (by simpa using hxa),
          List.erase_cons_tail (by simpa using hya)]
        exact List.Perm.swap x y _
  | trans h1 h2 ih1 ih2 => exact ih1.trans ih2

theorem erase_append_singleton_self {α : Type} [BEq α] [LawfulBEq α]
    (q : List α) (a : α) (h : a ∉ q) : (q ++ [a]).erase a = q := by
  induction q with
  | nil => simp
  | cons x t ih =>
    have hx : ¬ x = a := fun hh => h (by simp [hh])
    rw [List.cons_append, List.erase_cons_tail (by simpa using hx),
      ih (fun hm => h (List.mem_cons_of_mem x hm))]

/-! ### Cache-operation lemmas -/

theorem add_tile_to_cache_max (c : TileCache) (k : TileKey) (v : Tile)
    (c' : TileCache) (h : add_tile_to_cache c k v = some c') :
    c'.max_tiles = c.max_tiles := by
  unfold add_tile_to_cache at h
  split at h
  · cases hl : c.access_order.getLast? with
    | none => rw [hl] at h; cases h
    | some dk => rw [hl] at h; cases h; rfl
  · cases h; rfl

theorem add_tile_to_cache_order (c : TileCache) (k : TileKey) (v : Tile)
    (c' : TileCache) (h : add_tile_to_cache c k v = some c') :
    c'.access_order =
      k :: (if c.max_tiles ≤ c.tile_map.length then c.access_order.dropLast
            else c.access_order) := by
  unfold add_tile_to_cache at h
  split at h
  case isTrue ht =>
    cases hl : c.access_order.getLast? with
    | none => rw [hl] at h; cases h
    | some dk => rw [hl] at h; cases h; rw [if_pos ht]
  case isFalse ht =>
    cases h
    rw [if_neg ht]

theorem add_tile_to_cache_lookup_self (c : TileCache) (k : TileKey)
    (v : Tile) (c' : TileCache) (h : add_tile_to_cache c k v = some c') :
    lookupTile c'.tile_map k = some v := by
  unfold add_tile_to_cache at h
  split at h
  · cases hl : c.access_order.getLast? with
    | none => rw [hl] at h; cases h
    | some dk =>
      rw [hl] at h
      cases h
      exact lookupTile_setTile_self _ k v
  · cases h
    exact lookupTile_setTile_self _ k v

theorem add_tile_to_cache_isSome_iff (c : TileCache) (k : TileKey)
    (v : Tile) : (add_tile_to_cache c k v).isSome = true ↔
      (c.access_order ≠ [] ∨ c.tile_map.length < c.max_tiles) := by
  unfold add_tile_to_cache
  split
  case isTrue ht =>
    cases hl : c.access_order with
    | nil =>
      simp only [List.getLast?_nil, Option.isSome_none]
      constructor
      · intro hh; cases hh
      · rintro (hh | hh)
        · exact absurd rfl hh
        · omega
    | cons a t =>
      rw [← hl]
      have : c.access_order.getLast? = some ((a :: t).getLast (by simp)) := by
        rw [hl]
        exact List.getLast?_eq_getLast _ _
      rw [this]
      simp only [Option.isSome_some, true_iff]
      left
      rw [hl]
      simp
  case isFalse ht =>
    simp only [Option.isSome_some, true_iff]
    right
    omega

/-- `get` on a key that is present: the tile comes straight from the
map, the map itself is untouched, and the key moves to the front. -/
theorem get_tile_from_cache_present (c : TileCache) (k : TileKey) (v : Tile)
    (h : lookupTile c.tile_map k = some v) :
    get_tile_from_cache c k =
      (v, ⟨c.max_tiles, c.tile_map, k :: removeAll c.access_order k⟩) := by
  unfold get_tile_from_cache
  rw [h]

/-- `get` on an absent key: `operator[]` default-inserts an empty tile. -/
theorem get_tile_from_cache_absent (c : TileCache) (k : TileKey)
    (h : lookupTile c.tile_map k = none) :
    get_tile_from_cache c k =
      ([], ⟨c.max_tiles, setTile c.tile_map k [],
            k :: removeAll c.access_order k⟩) := by
  unfold get_tile_from_cache
  rw [h]

/-- A disciplined `get` (key present) preserves the structural
invariant. -/
theorem get_preserves_CacheInv (c : TileCache) (k : TileKey)
    (hinv : CacheInv c) (hk : is_tile_in_cache c k = true) :
    (get_tile_from_cache c k).2.tile_map = c.tile_map ∧
      CacheInv (get_tile_from_cache c k).2 ∧
      (get_tile_from_cache c k).2.max_tiles = c.max_tiles := by
  obtain ⟨hlen, hperm, hnd⟩ := hinv
  obtain ⟨v, hv⟩ := Option.isSome_iff_exists.mp (by simpa [is_tile_in_cache, containsKey] using hk)
  rw [get_tile_from_cache_present c k v hv]
  have hmem : k ∈ c.access_order :=
    hperm.mem_iff.mpr ((containsKey_iff_mem _ _).mp
      (by simpa [is_tile_in_cache] using hk))
  have hordnd : c.access_order.Nodup := hperm.nodup_iff.mpr hnd
  refine ⟨rfl, ⟨hlen, ?_, hnd⟩, rfl⟩
  exact (cons_removeAll_perm c.access_order k hordnd hmem).trans hperm

/-- A disciplined `put` (key absent, capacity at least one) succeeds
and preserves the structural invariant. -/
theorem put_fresh_CacheInv (c : TileCache) (k : TileKey) (v : Tile)
    (hinv : CacheInv c) (hcap : 1 ≤ c.max_tiles)
    (hk : is_tile_in_cache c k = false) :
    ∃ c', add_tile_to_cache c k v = some c' ∧ CacheInv c' := by
  obtain ⟨hlen, hperm, hnd⟩ := hinv
  have hkc : containsKey c.tile_map k = false := by
    simpa [is_tile_in_cache] using hk
  have hknotmem : k ∉ keysOf c.tile_map := fun hm =>
    by simp [(containsKey_iff_mem _ _).mpr hm] at hkc
  unfold add_tile_to_cache
  by_cases hfull : c.max_tiles ≤ c.tile_map.length
  · -- the map is full: `size = max_tiles ≥ 1`, so the order is nonempty
    have hsz : c.tile_map.length = c.max_tiles := le_antisymm hlen hfull
    have hordlen : c.access_order.length = c.tile_map.length := by
      simpa [keysOf] using hperm.length_eq
    have hne : c.access_order ≠ [] := by
      intro hnil
      rw [hnil] at hordlen
      simp at hordlen
      omega
    rw [if_pos hfull]
    rcases List.eq_nil_or_concat c.access_order with hnil | ⟨q, dk, hq⟩
    · exact absurd hnil hne
    · rw [List.concat_eq_append] at hq
      rw [hq, List.getLast?_concat]
      refine ⟨_, rfl, ?_⟩
      have hdkmem : dk ∈ keysOf c.tile_map := by
        apply hperm.subset
        rw [hq]
        simp
      have hdkc : containsKey c.tile_map dk := (containsKey_iff_mem _ _).mpr hdkmem
      have hkdk : k ≠ dk := fun hh => hknotmem (hh ▸ hdkmem)
      have hkerase : containsKey (eraseKey c.tile_map dk) k = false := by
        simp only [containsKey, lookupTile_eraseKey_ne _ dk k hkdk]
        simpa [containsKey] using hkc
      have hkeys : keysOf (setTile (eraseKey c.tile_map dk) k v) =
          (keysOf c.tile_map).erase dk ++ [k] := by
        rw [keysOf_setTile, if_neg (by simp [hkerase]), keysOf_eraseKey]
      constructor
      · -- length bound
        show (setTile (eraseKey c.tile_map dk) k v).length ≤ c.max_tiles
        rw [length_setTile, if_neg (by simp [hkerase]), length_eraseKey,
          if_pos hdkc]
        have h1 : 1 ≤ c.tile_map.length := by omega
        omega
      constructor
      · -- the recency order is a permutation of the keys
        show (k :: List.dropLast (q ++ [dk])).Perm
          (keysOf (setTile (eraseKey c.tile_map dk) k v))
        have hdrop : (q ++ [dk]).dropLast = q := by simp
        rw [hkeys, hdrop]
        have hqnd : (q ++ [dk]).Nodup := by
          rw [← hq]
          exact hperm.nodup_iff.mpr hnd
        have hdknq : dk ∉ q := by
          intro hmm
          rw [List.nodup_append] at hqnd
          exact hqnd.2.2 hmm (by simp)
        have herase : (q ++ [dk]).erase dk = q :=
          erase_append_singleton_self q dk hdknq
        have hperm' : (q ++ [dk]).Perm (keysOf c.tile_map) := hq ▸ hperm
        have hperase : ((keysOf c.tile_map).erase dk).Perm q := by
          have h4 := perm_erase_of_perm dk hperm'.symm
          rw [herase] at h4
          exact h4
        exact ((List.perm_append_singleton k
          ((keysOf c.tile_map).erase dk)).trans (hperase.cons k)).symm
      · -- keys stay distinct
        rw [hkeys]
        rw [List.nodup_append]
        refine ⟨hnd.erase dk, List.nodup_singleton k, ?_⟩
        intro a ha hb
        simp only [List.mem_singleton] at hb
        subst hb
        exact hknotmem (List.mem_of_mem_erase ha)
  · rw [if_neg hfull]
    refine ⟨_, rfl, ?_⟩
    have hkeys : keysOf (setTile c.tile_map k v) = keysOf c.tile_map ++ [k] := by
      rw [keysOf_setTile, if_neg (by simp [hkc])]
    refine ⟨?_, ?_, ?_⟩
    · show (setTile c.tile_map k v).length ≤ c.max_tiles
      rw [length_setTile, if_neg (by simp [hkc])]
      omega
    · show (k :: c.access_order).Perm (keysOf (setTile c.tile_map k v))
      rw [hkeys]
      exact (hperm.cons k).trans (List.perm_append_singleton k _).symm
    · rw [hkeys, List.nodup_append]
      refine ⟨hnd, List.nodup_singleton k, ?_⟩
      intro a ha hb
      simp only [List.mem_singleton] at hb
      subst hb
      exact hknotmem ha

/-! ### Operation sequences -/

theorem runFrom_append (c : TileCache) (l₁ l₂ : List CacheOp) :
    runFrom c (l₁ ++ l₂) =
      match runFrom c l₁ with
      | none => none
      | some c' => runFrom c' l₂ := by
  induction l₁ generalizing c with
  | nil => simp [runFrom]
  | cons op rest ih =>
    simp only [List.cons_append, runFrom]
    cases step c op with
    | none => rfl
    | some c' => exact ih c'

theorem emptyCache_CacheInv (cap : Nat) : CacheInv (emptyCache cap) := by
  refine ⟨by simp [emptyCache], ?_, by simp [emptyCache, keysOf]⟩
  simp [emptyCache, keysOf]

/-- Each disciplined operation from an invariant state succeeds and
re-establishes the invariant (capacities of at least one tile). -/
theorem runFrom_CacheInv (ops : List CacheOp) :
    ∀ c : TileCache, 1 ≤ c.max_tiles → CacheInv c →
      disciplined c ops = true →
      ∃ c', runFrom c ops = some c' ∧ CacheInv c' ∧
        c'.max_tiles = c.max_tiles := by
  induction ops with
  | nil =>
    intro c hcap hinv _
    exact ⟨c, rfl, hinv, rfl⟩
  | cons op rest ih =>
    intro c hcap hinv hd
    cases op with
    | containsOp k =>
      obtain ⟨c', h1, h2, h3⟩ := ih c hcap hinv (by simpa [disciplined] using hd)
      exact ⟨c', by simpa [runFrom, step] using h1, h2, h3⟩
    | get k =>
      have hd' := hd
      simp only [disciplined, Bool.and_eq_true] at hd'
      obtain ⟨hmem, hrest⟩ := hd'
      obtain ⟨hmap, hinv', hmax⟩ := get_preserves_CacheInv c k hinv hmem
      obtain ⟨c', h1, h2, h3⟩ :=
        ih (get_tile_from_cache c k).2 (hmax ▸ hcap) hinv' hrest
      exact ⟨c', by simpa [runFrom, step] using h1, h2, h3.trans hmax⟩
    | put k v =>
      have hd' := hd
      simp only [disciplined, Bool.and_eq_true, Bool.not_eq_true'] at hd'
      obtain ⟨habs, hrest⟩ := hd'
      obtain ⟨c1, hadd, hinv1⟩ := put_fresh_CacheInv c k v hinv hcap habs
      rw [hadd] at hrest
      have hmax1 := add_tile_to_cache_max c k v c1 hadd
      obtain ⟨c', h1, h2, h3⟩ := ih c1 (hmax1 ▸ hcap) hinv1 hrest
      refine ⟨c', ?_, h2, h3.trans hmax1⟩
      simpa [runFrom, step, hadd] using h1

theorem putOps_append (ks : List TileKey) (k : TileKey) :
    putOps (ks ++ [k]) = putOps ks ++ [CacheOp.put k []] := by
  simp [putOps]

/-- Loading a sequence of distinct tiles: the recency order after the
run is exactly the most recent `cap` keys, newest first, and the map's
keys agree up to permutation. -/
theorem runPuts_spec (cap : Nat) (hcap : 1 ≤ cap) (ks : List TileKey)
    (hnd : ks.Nodup) :
    ∃ c, runFrom (emptyCache cap) (putOps ks) = some c ∧ CacheInv c ∧
      c.max_tiles = cap ∧ c.access_order = ks.reverse.take cap := by
  induction ks using List.reverseRecOn with
  | nil =>
    exact ⟨emptyCache cap, rfl, emptyCache_CacheInv cap, rfl, by simp [emptyCache]⟩
  | append_singleton ks k ih =>
    have hnd' : ks.Nodup := (List.nodup_append.mp hnd).1
    have hknotin : k ∉ ks := by
      intro hmm
      exact (List.nodup_append.mp hnd).2.2 hmm (by simp)
    obtain ⟨c, hrun, hinv, hmax, hord⟩ := ih hnd'
    have hfresh : is_tile_in_cache c k = false := by
      rw [is_tile_in_cache]
      cases hck : containsKey c.tile_map k
      · rfl
      · exfalso
        have hmem : k ∈ keysOf c.tile_map := (containsKey_iff_mem _ _).mp hck
        have : k ∈ c.access_order := hinv.2.1.mem_iff.mpr hmem
        rw [hord] at this
        exact hknotin (by
          have h5 : k ∈ ks.reverse := List.take_subset cap ks.reverse this
          simpa using h5)
    obtain ⟨c1, hadd, hinv1⟩ :=
      put_fresh_CacheInv c k [] hinv (hmax ▸ hcap) hfresh
    have hlen : c.tile_map.length = min cap ks.length := by
      have h6 : c.access_order.length = (keysOf c.tile_map).length :=
        hinv.2.1.length_eq
      have h7 : (keysOf c.tile_map).length = c.tile_map.length := by
        simp [keysOf]
      rw [hord] at h6
      simp only [List.length_take, List.length_reverse] at h6
      omega
    refine ⟨c1, ?_, hinv1, (add_tile_to_cache_max c k [] c1 hadd).trans hmax, ?_⟩
    · rw [putOps_append, runFrom_append, hrun]
      simp [runFrom, step, hadd]
    · rw [add_tile_to_cache_order c k [] c1 hadd, hmax, hord]
      by_cases hfull : cap ≤ ks.length
      · rw [if_pos (by rw [hlen]; omega)]
        have h8 : (ks.reverse.take cap).length = cap := by
          simp only [List.length_take, List.length_reverse]
          omega
        rw [List.dropLast_eq_take, h8, List.take_take]
        obtain ⟨m, rfl⟩ : ∃ m, cap = m + 1 :=
          ⟨cap - 1, by omega⟩
        rw [List.reverse_append]
        simp only [List.reverse_singleton, List.singleton_append,
          List.take_succ_cons]
        have h9 : min (m + 1 - 1) (m + 1) = m := by omega
        rw [h9]
      · rw [if_neg (by rw [hlen]; omega)]
        have h10 : ks.reverse.take cap = ks.reverse := by
          apply List.take_of_length_le
          simp only [List.length_reverse]
          omega
        rw [h10, List.reverse_append]
        simp only [List.reverse_singleton, List.singleton_append]
        obtain ⟨m, rfl⟩ : ∃ m, cap = m + 1 :=
          ⟨cap - 1, by omega⟩
        rw [List.take_succ_cons]
        have h11 : ks.reverse.take m = ks.reverse := by
          apply List.take_of_length_le
          simp only [List.length_reverse]
          omega
        rw [h11]

/-! ### Cache transparency of the single-raster query -/

theorem add_preserves_ValInv (ts : Nat) (info : RasterInfo) (c : TileCache)
    (k : TileKey) (t : Tile) (c' : TileCache) (hval : ValInv ts info c)
    (hnd : (keysOf c.tile_map).Nodup)
    (hload : loadTileData ts info k = some t)
    (hadd : add_tile_to_cache c k t = some c') : ValInv ts info c' := by
  intro k' t' hl
  unfold add_tile_to_cache at hadd
  split at hadd
  · cases hlast : c.access_order.getLast? with
    | none => rw [hlast] at hadd; cases hadd
    | some dk =>
      rw [hlast] at hadd
      cases hadd
      simp only at hl
      by_cases hk : k' = k
      · subst hk
        rw [lookupTile_setTile_self] at hl
        cases hl
        exact hload
      · rw [lookupTile_setTile_ne _ k t k' hk] at hl
        by_cases hdk : k' = dk
        · subst hdk
          rw [lookupTile_eraseKey_self _ k' hnd] at hl
          cases hl
        · rw [lookupTile_eraseKey_ne _ dk k' hdk] at hl
          exact hval k' t' hl
  · cases hadd
    simp only at hl
    by_cases hk : k' = k
    · subst hk
      rw [lookupTile_setTile_self] at hl
      cases hl
      exact hload
    · rw [lookupTile_setTile_ne _ k t k' hk] at hl
      exact hval k' t' hl

theorem cap_zero_add_none (c : TileCache) (k : TileKey) (t : Tile)
    (hinv : CacheInv c) (hcap0 : c.max_tiles = 0) :
    add_tile_to_cache c k t = none := by
  obtain ⟨hlen, hperm, _⟩ := hinv
  have hmap : c.tile_map.length = 0 := by omega
  have hkeys : keysOf c.tile_map = [] := by
    have : (keysOf c.tile_map).length = 0 := by simp [keysOf, hmap]
    exact List.length_eq_zero.mp this
  have hord : c.access_order = [] := by
    have h2 := hperm.length_eq
    rw [hkeys] at h2
    simpa using h2
  unfold add_tile_to_cache
  rw [if_pos (by omega), hord]
  rfl

/-- The observable result of the per-raster query is a function of the
point, the raster, and the configured capacity alone — never of the
tile-cache state. -/
theorem is_water_raster_fst (ts : Nat) (info : RasterInfo) (lon lat : ℚ)
    (c : TileCache) (hinv : CacheInv c) (hval : ValInv ts info c) :
    Option.map Prod.fst (is_water_raster ts info lon lat c) =
      querySpec ts info c.max_tiles lon lat := by
  unfold is_water_raster querySpec
  cases htr : info.transform lon lat with
  | none => simp
  | some xy =>
    simp only [Option.some_bind]
    cases hpp : pixelPos info xy.1 xy.2 with
    | none => simp
    | some p =>
      simp only [Option.some_bind]
      by_cases hts : ts = 0
      · rw [if_pos hts, if_pos hts]
        simp
      · rw [if_neg hts, if_neg hts]
        by_cases hit : is_tile_in_cache c (p.1 / ts, p.2 / ts) = true
        · rw [if_pos hit]
          obtain ⟨v, hv⟩ := Option.isSome_iff_exists.mp
            (by simpa [is_tile_in_cache, containsKey] using hit)
          have hload : loadTileData ts info (p.1 / ts, p.2 / ts) = some v :=
            hval _ v hv
          have hcap : ¬ c.max_tiles = 0 := by
            intro h0
            have h1 : c.tile_map.length = 0 := by
              have := hinv.1
              omega
            have h3 := lookupTile_none_of_not_mem c.tile_map (p.1 / ts, p.2 / ts)
              (by
                have h2 : keysOf c.tile_map = [] := by
                  apply List.length_eq_zero.mp
                  simp [keysOf, h1]
                rw [h2]
                simp)
            rw [h3] at hv
            cases hv
          rw [if_neg hcap, hload]
          simp only [Option.some_bind, get_tile_from_cache_present c _ v hv]
          cases hb : v[p.2 % ts * ts + p.1 % ts]? <;> simp [hb]
        · rw [if_neg hit]
          cases hload : loadTileData ts info (p.1 / ts, p.2 / ts) with
          | none =>
            by_cases hcap0 : c.max_tiles = 0
            · rw [if_pos hcap0]
              simp [load_tile_cache, hload]
            · rw [if_neg hcap0]
              simp [load_tile_cache, hload]
          | some t =>
            by_cases hcap0 : c.max_tiles = 0
            · rw [if_pos hcap0]
              simp [load_tile_cache, hload, cap_zero_add_none c _ t hinv hcap0]
            · rw [if_neg hcap0]
              obtain ⟨c1, hadd, hinv1⟩ := put_fresh_CacheInv c _ t hinv
                (by omega) (by simpa using hit)
              have hlk : lookupTile c1.tile_map (p.1 / ts, p.2 / ts) = some t :=
                add_tile_to_cache_lookup_self c _ t c1 hadd
              simp only [load_tile_cache, hload, hadd, Option.some_bind,
                get_tile_from_cache_present c1 _ t hlk]
              cases hb : t[p.2 % ts * ts + p.1 % ts]? <;> simp [hb]

/-- A successful per-raster query re-establishes both invariants and
keeps the capacity. -/
theorem is_water_raster_inv (ts : Nat) (info : RasterInfo) (lon lat : ℚ)
    (c : TileCache) (b : Bool) (c2 : TileCache) (hinv : CacheInv c)
    (hval : ValInv ts info c)
    (h : is_water_raster ts info lon lat c = some (b, c2)) :
    CacheInv c2 ∧ ValInv ts info c2 ∧ c2.max_tiles = c.max_tiles := by
  unfold is_water_raster at h
  cases htr : info.transform lon lat with
  | none =>
    rw [htr] at h
    simp at h
  | some xy =>
    rw [htr] at h
    simp only [Option.some_bind] at h
    cases hpp : pixelPos info xy.1 xy.2 with
    | none =>
      rw [hpp] at h
      simp at h
    | some p =>
      rw [hpp] at h
      simp only [Option.some_bind] at h
      by_cases hts : ts = 0
      · rw [if_pos hts] at h
        cases h
      · rw [if_neg hts] at h
        by_cases hit : is_tile_in_cache c (p.1 / ts, p.2 / ts) = true
        · rw [if_pos hit] at h
          obtain ⟨v, hv⟩ := Option.isSome_iff_exists.mp
            (by simpa [is_tile_in_cache, containsKey] using hit)
          simp only [Option.some_bind,
            get_tile_from_cache_present c _ v hv] at h
          cases hb : v[p.2 % ts * ts + p.1 % ts]? with
          | none =>
            rw [hb] at h
            simp at h
          | some bytev =>
            rw [hb] at h
            simp only [Option.map_some'] at h
            cases h
            obtain ⟨hmap, hinv2, hmax⟩ :=
              get_preserves_CacheInv c (p.1 / ts, p.2 / ts) hinv hit
            rw [get_tile_from_cache_present c _ v hv] at hinv2 hmax
            refine ⟨hinv2, ?_, hmax⟩
            intro k' t' hl
            exact hval k' t' hl
        · rw [if_neg hit] at h
          cases hload : loadTileData ts info (p.1 / ts, p.2 / ts) with
          | none =>
            rw [show load_tile_cache ts info (p.1 / ts, p.2 / ts) c = none
              from by simp [load_tile_cache, hload]] at h
            simp at h
          | some t =>
            by_cases hcap0 : c.max_tiles = 0
            · rw [show load_tile_cache ts info (p.1 / ts, p.2 / ts) c = none
                from by simp [load_tile_cache, hload,
                  cap_zero_add_none c _ t hinv hcap0]] at h
              simp at h
            · obtain ⟨c1, hadd, hinv1⟩ := put_fresh_CacheInv c _ t hinv
                (by omega) (by simpa using hit)
              have hval1 : ValInv ts info c1 :=
                add_preserves_ValInv ts info c _ t c1 hval hinv.2.2 hload hadd
              have hmax1 := add_tile_to_cache_max c _ t c1 hadd
              have hlk : lookupTile c1.tile_map (p.1 / ts, p.2 / ts) = some t :=
                add_tile_to_cache_lookup_self c _ t c1 hadd
              rw [show load_tile_cache ts info (p.1 / ts, p.2 / ts) c = some c1
                from by simp [load_tile_cache, hload, hadd]] at h
              simp only [Option.some_bind,
                get_tile_from_cache_present c1 _ t hlk] at h
              cases hb : t[p.2 % ts * ts + p.1 % ts]? with
              | none =>
                rw [hb] at h
                simp at h
              | some bytev =>
                rw [hb] at h
                simp only [Option.map_some'] at h
                cases h
                have hit1 : is_tile_in_cache c1 (p.1 / ts, p.2 / ts) = true := by
                  simp [is_tile_in_cache, containsKey, hlk]
                obtain ⟨hmap, hinv2, hmax⟩ :=
                  get_preserves_CacheInv c1 (p.1 / ts, p.2 / ts) hinv1 hit1
                rw [get_tile_from_cache_present c1 _ t hlk] at hinv2 hmax
                refine ⟨hinv2, ?_, hmax.trans hmax1⟩
                intro k' t' hl
                exact hval1 k' t' hl

/-! ### Batch dispatch lemmas -/

theorem writeRange_length (q : ℚ → ℚ → Option Bool) (lon lat : List ℚ)
    (L : List Nat) : ∀ r r' : List Bool,
    writeRange q lon lat L r = some r' → r'.length = r.length := by
  induction L with
  | nil =>
    intro r r' h
    simp only [writeRange] at h
    cases h
    rfl
  | cons ix rest ih =>
    intro r r' h
    simp only [writeRange] at h
    cases hq : q (lon.getD ix 0) (lat.getD ix 0) with
    | none => rw [hq] at h; cases h
    | some b =>
      rw [hq] at h
      have := ih _ _ h
      rw [this, List.length_set]

theorem chunkFold_preserve {α : Type} (w : Nat → Nat → α → Option α)
    (size shift n : Nat) (P : α → Prop)
    (hw : ∀ s e x x', w s e x = some x' → P x → P x') :
    ∀ (L : List Nat) (acc acc' : α),
      chunkFold w size shift n L acc = some acc' → P acc → P acc' := by
  intro L
  induction L with
  | nil =>
    intro acc acc' h hP
    simp only [chunkFold] at h
    cases h
    exact hP
  | cons ix rest ih =>
    intro acc acc' h hP
    simp only [chunkFold] at h
    cases hstep : w (ix * shift) (if ix = n - 1 then size else (ix + 1) * shift)
        acc with
    | none => rw [hstep] at h; cases h
    | some acc1 =>
      rw [hstep] at h
      exact ih acc1 acc' h (hw _ _ _ _ hstep hP)

theorem parallel_for_preserve {α : Type} (w : Nat → Nat → α → Option α)
    (size nt hc : Nat) (init : α) (r : α) (P : α → Prop)
    (hw : ∀ s e x x', w s e x = some x' → P x → P x')
    (h : parallel_for w size nt hc init = Except.ok r) (hP : P init) :
    P r := by
  unfold parallel_for at h
  split at h
  · cases hres : w 0 size init with
    | none => rw [hres] at h; cases h
    | some r' =>
      rw [hres] at h
      cases h
      exact hw _ _ _ _ hres hP
  · by_cases hz : min (if nt = 0 then hc else nt) size = 0
    · rw [if_pos hz] at h
      cases h
    · rw [if_neg hz] at h
      cases hres : chunkFold w size
          (size / min (if nt = 0 then hc else nt) size)
          (min (if nt = 0 then hc else nt) size)
          (List.range (min (if nt = 0 then hc else nt) size)) init with
      | none => rw [hres] at h; cases h
      | some r' =>
        rw [hres] at h
        cases h
        exact chunkFold_preserve w size _ _ P hw _ init r hres hP

/-! ### Remaining invariant helpers for concrete states -/

theorem emptyCache_ValInv (ts : Nat) (info : RasterInfo) (cap : Nat) :
    ValInv ts info (emptyCache cap) := by
  intro k t h
  simp [emptyCache, lookupTile] at h

theorem cacheW_CacheInv : CacheInv cacheW := by
  refine ⟨by decide, ?_, by decide⟩
  simp [cacheW, keysOf]

theorem cacheW_ValInv : ValInv 2 infoW cacheW := by
  intro k t h
  simp only [cacheW, lookupTile] at h
  by_cases hk : ((0, 0) : TileKey) = k
  · rw [if_pos hk] at h
    cases h
    rw [← hk]
    rfl
  · rw [if_neg hk] at h
    simp [lookupTile] at h

/-! ### The claims -/

/-- Claim C1, counterexample: two rasters with the same bounding box
both contain the point `(5, 5)`; the first (in input order) reports
not-water, the second reports water.  The claim says the first
containing raster's verdict (`false`) wins; the code returns `true`. -/
theorem claim1_counterexample :
    BBox.contains ⟨0, 10, 0, 10⟩ 5 5 = true ∧
    (⟨⟨0, 10, 0, 10⟩, fun _ _ => some false⟩ : Raster).query 5 5 =
      some false ∧
    is_water_point [⟨⟨0, 10, 0, 10⟩, fun _ _ => some false⟩,
      ⟨⟨0, 10, 0, 10⟩, fun _ _ => some true⟩] 5 5 = some true := by
  refine ⟨by decide, rfl, by rfl⟩

/-- Claim C1, amended: when every containing raster's per-raster query
is defined at the point, the query returns `true` iff SOME containing
raster marks the point as water.  The first containing raster wins only
when it reports water; a not-water verdict lets later rasters override. -/
theorem claim1_any_water_wins (rs : List Raster) (lon lat : ℚ)
    (htot : ∀ r ∈ rs, r.bbox.contains lon lat = true →
      (r.query lon lat).isSome = true) :
    is_water_point rs lon lat =
      some (rs.any fun r =>
        r.bbox.contains lon lat && (r.query lon lat).getD false) := by
  induction rs with
  | nil => simp [is_water_point]
  | cons r rest ih =>
    have ihr := ih (fun r' hr' => htot r' (List.mem_cons_of_mem r hr'))
    simp only [is_water_point]
    by_cases hc : r.bbox.contains lon lat = true
    · cases hq : r.query lon lat with
      | none =>
        have hs := htot r (List.mem_cons_self r rest) hc
        rw [hq] at hs
        cases hs
      | some b =>
        rw [if_pos hc]
        simp only [Option.some_bind]
        cases b
        · rw [if_neg (by simp)]
          rw [ihr]
          simp [List.any_cons, hc, hq]
        · rw [if_pos rfl]
          simp [List.any_cons, hc, hq]
    · rw [if_neg hc]
      rw [ihr]
      have hcf : r.bbox.contains lon lat = false := by
        simpa using hc
      simp [List.any_cons, hcf]

/-- Claim C1, witness: the amended theorem applied to the two-raster
counterexample configuration. -/
theorem claim1_witness :
    is_water_point [⟨⟨0, 10, 0, 10⟩, fun _ _ => some false⟩,
      ⟨⟨0, 10, 0, 10⟩, fun _ _ => some true⟩] 5 5 =
      some (([⟨⟨0, 10, 0, 10⟩, fun _ _ => some false⟩,
        ⟨⟨0, 10, 0, 10⟩, fun _ _ => some true⟩] : List Raster).any fun r =>
          r.bbox.contains 5 5 && (r.query 5 5).getD false) :=
  claim1_any_water_wins _ 5 5 (by
    intro r hr hcont
    rcases List.mem_cons.mp hr with rfl | hr2
    · rfl
    · rcases List.mem_cons.mp hr2 with rfl | h3
      · rfl
      · cases h3)

/-- Claim C2, counterexample: `get` on a key that is absent does not
fail with NotFound — `operator[]` silently default-inserts an empty
tile, which the call returns, and the map gains a binding. -/
theorem claim2_counterexample :
    get_tile_from_cache (emptyCache 1) (0, 0) =
      ([], ⟨1, [((0, 0), [])], [(0, 0)]⟩) := by
  decide

/-- Claim C2, amended: `get(key)` is total.  When `key` is present it
returns the stored tile, leaves the map unchanged and moves `key` to
the front of the recency list (removing its other occurrences); when
`key` is absent it default-inserts an empty tile under `key`, returns
that empty tile, and still pushes `key` to the front. -/
theorem claim2_amended (c : TileCache) (k : TileKey) :
    (∀ v, lookupTile c.tile_map k = some v →
      (get_tile_from_cache c k).1 = v ∧
      (get_tile_from_cache c k).2.tile_map = c.tile_map ∧
      (get_tile_from_cache c k).2.access_order =
        k :: removeAll c.access_order k) ∧
    (lookupTile c.tile_map k = none →
      (get_tile_from_cache c k).1 = [] ∧
      (get_tile_from_cache c k).2.tile_map = setTile c.tile_map k [] ∧
      (get_tile_from_cache c k).2.access_order =
        k :: removeAll c.access_order k) := by
  constructor
  · intro v hv
    rw [get_tile_from_cache_present c k v hv]
    exact ⟨rfl, rfl, rfl⟩
  · intro hv
    rw [get_tile_from_cache_absent c k hv]
    exact ⟨rfl, rfl, rfl⟩

/-- Claim C2, witness: the amended theorem applied to a one-entry cache
with the key present. -/
theorem claim2_witness :
    (get_tile_from_cache (⟨1, [((0, 0), [5])], [(0, 0)]⟩ : TileCache)
      (0, 0)).1 = [5] ∧
    (get_tile_from_cache (⟨1, [((0, 0), [5])], [(0, 0)]⟩ : TileCache)
      (0, 0)).2.tile_map = [((0, 0), [5])] ∧
    (get_tile_from_cache (⟨1, [((0, 0), [5])], [(0, 0)]⟩ : TileCache)
      (0, 0)).2.access_order = (0, 0) :: removeAll [(0, 0)] (0, 0) :=
  (claim2_amended ⟨1, [((0, 0), [5])], [(0, 0)]⟩ (0, 0)).1 [5] rfl

/-- Claim C3, counterexample: from a reachable state holding `(0,0)`
and `(1,0)` at full capacity 2 with `(0,0)` most recent, a `put` of the
ALREADY-PRESENT key `(0,0)` still evicts the LRU entry `(1,0)` (the
code never checks whether the key is present), and the recency list
ends up with `(0,0)` twice. -/
theorem claim3_counterexample :
    runFrom (emptyCache 2) [CacheOp.put (0, 0) [1], CacheOp.put (1, 0) [2],
      CacheOp.get (0, 0), CacheOp.put (0, 0) [3]] =
      some ⟨2, [((0, 0), [3])], [(0, 0), (0, 0)]⟩ ∧
    lookupTile [((0, 0), ([3] : Tile))] (1, 0) = none := by
  exact ⟨by decide, rfl⟩

/-- Claim C3, amended: `put` evicts the back of the recency list
whenever the map already holds at least `max_tiles` entries —
regardless of whether `key` is already present — and in every
successful case pushes the inserted key onto the front of the
recency order (duplicating any existing occurrence). -/
theorem claim3_amended (c : TileCache) (k : TileKey) (v : Tile)
    (c' : TileCache) (h : add_tile_to_cache c k v = some c') :
    c'.access_order.head? = some k ∧
    (c.tile_map.length < c.max_tiles →
      c'.tile_map = setTile c.tile_map k v ∧
      c'.access_order = k :: c.access_order) ∧
    (c.max_tiles ≤ c.tile_map.length →
      ∃ dk, c.access_order.getLast? = some dk ∧
        c'.tile_map = setTile (eraseKey c.tile_map dk) k v ∧
        c'.access_order = k :: c.access_order.dropLast) := by
  refine ⟨?_, ?_, ?_⟩
  · rw [add_tile_to_cache_order c k v c' h]
    rfl
  · intro hlt
    unfold add_tile_to_cache at h
    rw [if_neg (by omega)] at h
    cases h
    exact ⟨rfl, rfl⟩
  · intro hge
    unfold add_tile_to_cache at h
    rw [if_pos hge] at h
    cases hl : c.access_order.getLast? with
    | none => rw [hl] at h; cases h
    | some dk =>
      rw [hl] at h
      cases h
      exact ⟨dk, rfl, rfl, rfl⟩

/-- Claim C3, witness: the amended theorem applied to a fresh insert
into an empty cache of capacity 1. -/
theorem claim3_witness :
    ((⟨1, [((0, 0), [7])], [(0, 0)]⟩ : TileCache)).access_order.head? =
      some (0, 0) ∧
    (([] : List (TileKey × Tile)).length < 1 →
      ([((0, 0), ([7] : Tile))] : List (TileKey × Tile)) =
        setTile [] (0, 0) [7] ∧
      ([(0, 0)] : List TileKey) = (0, 0) :: ([] : List TileKey)) ∧
    (1 ≤ ([] : List (TileKey × Tile)).length →
      ∃ dk, ([] : List TileKey).getLast? = some dk ∧
        ([((0, 0), ([7] : Tile))] : List (TileKey × Tile)) =
          setTile (eraseKey [] dk) (0, 0) [7] ∧
        ([(0, 0)] : List TileKey) =
          (0, 0) :: ([] : List TileKey).dropLast) :=
  claim3_amended (emptyCache 1) (0, 0) [7]
    ⟨1, [((0, 0), [7])], [(0, 0)]⟩ rfl

/-- Claim C7: a point strictly outside the bounding box of every raster
yields `false`, whatever the per-raster queries would have answered —
the mask data is never consulted (the result is independent of every
`query` field). -/
theorem claim7_outside_all_boxes (rs : List Raster) (lon lat : ℚ)
    (h : ∀ r ∈ rs, r.bbox.contains lon lat = false) :
    is_water_point rs lon lat = some false := by
  induction rs with
  | nil => rfl
  | cons r rest ih =>
    have hr := h r (List.mem_cons_self r rest)
    simp only [is_water_point]
    rw [if_neg (by simp [hr])]
    exact ih (fun r' hr' => h r' (List.mem_cons_of_mem r hr'))

/-- Claim C7, witness: a raster whose unit box does not contain
`(5, 5)` and whose mask claims everything is water; the query still
returns `false`. -/
theorem claim7_witness :
    is_water_point [⟨⟨0, 1, 0, 1⟩, fun _ _ => some true⟩] 5 5 =
      some false :=
  claim7_outside_all_boxes _ 5 5 (by
    intro r hr
    rcases List.mem_cons.mp hr with rfl | h2
    · decide
    · cases h2)

/-- Claim C8, counterexample: for the projected value `-1/2` with the
identity geotransform, `floor` is `-1`, but the code's
`static_cast<size_t>` truncates toward zero and produces pixel index
`0` — the claimed floor semantics fails on negative fractional
quotients. -/
theorem claim8_counterexample :
    pixelIndex (-(1 : ℚ)/2) 0 1 = some 0 ∧
    ⌊((-(1 : ℚ)/2 - 0) / 1)⌋ = -1 := by
  constructor
  · norm_num [pixelIndex, castToSizeT, Int.floor_eq_iff]
  · norm_num [Int.floor_eq_iff]

/-- Claim C8, amended: the pixel index equals
`floor((coord - g_offset) / g_scale)` whenever that quotient is
nonnegative (and below `2^64`); the conversion truncates toward zero
into an unsigned type, so quotients in `(-1, 0)` produce `0` instead of
`-1` and quotients at or below `-1` are not representable. -/
theorem claim8_amended (coord g_offset g_scale : ℚ)
    (h0 : 0 ≤ (coord - g_offset) / g_scale)
    (h1 : (coord - g_offset) / g_scale < 2 ^ 64) :
    pixelIndex coord g_offset g_scale =
      some (Int.toNat ⌊(coord - g_offset) / g_scale⌋) ∧
    (Int.toNat ⌊(coord - g_offset) / g_scale⌋ : ℤ) =
      ⌊(coord - g_offset) / g_scale⌋ := by
  constructor
  · unfold pixelIndex castToSizeT
    rw [if_neg (by linarith), if_neg (by exact not_le.mpr h1)]
  · exact Int.toNat_of_nonneg (Int.floor_nonneg.mpr h0)

/-- Claim C8, witness: the amended theorem at quotient `(5 - 1)/2 = 2`. -/
theorem claim8_witness :
    pixelIndex 5 1 2 = some (Int.toNat ⌊((5 : ℚ) - 1) / 2⌋) ∧
    (Int.toNat ⌊((5 : ℚ) - 1) / 2⌋ : ℤ) = ⌊((5 : ℚ) - 1) / 2⌋ :=
  claim8_amended 5 1 2 (by norm_num) (by norm_num)

/-- Claim C10: `put` into a cache constructed with `max_tiles = 0` takes
the eviction branch on the empty recency list (undefined behaviour in
the C++: `back()` of an empty `std::list`); a `put` is well defined
exactly when the recency list is nonempty or no eviction is needed, and
in particular it is always safe when `max_tiles ≥ 1` and the recency
list is at least as long as the map (true in every reachable state). -/
theorem claim10_put_safety :
    add_tile_to_cache (emptyCache 0) (0, 0) [] = none ∧
    (∀ (c : TileCache) (k : TileKey) (v : Tile),
      (add_tile_to_cache c k v).isSome = true ↔
        (c.access_order ≠ [] ∨ c.tile_map.length < c.max_tiles)) ∧
    (∀ (c : TileCache) (k : TileKey) (v : Tile), 1 ≤ c.max_tiles →
      c.tile_map.length ≤ c.access_order.length →
      (add_tile_to_cache c k v).isSome = true) := by
  refine ⟨rfl, add_tile_to_cache_isSome_iff, ?_⟩
  intro c k v hcap hlen
  rw [add_tile_to_cache_isSome_iff]
  by_cases hfull : c.tile_map.length < c.max_tiles
  · exact Or.inr hfull
  · left
    have h1 : 1 ≤ c.access_order.length := by omega
    intro hnil
    rw [hnil] at h1
    simp at h1

/-- Claim C10, witness: the undefined put at capacity 0 and a safe put
at capacity 1. -/
theorem claim10_witness :
    add_tile_to_cache (emptyCache 0) (0, 0) [] = none ∧
    (add_tile_to_cache (emptyCache 1) (0, 0) []).isSome = true :=
  ⟨claim10_put_safety.1,
   claim10_put_safety.2.2 (emptyCache 1) (0, 0) [] (by decide) (by decide)⟩

/-- Claim C4, counterexample: two `put`s of the same key from the empty
cache of capacity 2 leave the recency list `[(0,0), (0,0)]` while the
map holds the single key `(0,0)` — the recency list is NOT a
permutation of the map's keys, so the claimed invariant fails for
arbitrary operation sequences. -/
theorem claim4_counterexample :
    runFrom (emptyCache 2) [CacheOp.put (0, 0) [], CacheOp.put (0, 0) []] =
      some ⟨2, [((0, 0), [])], [(0, 0), (0, 0)]⟩ ∧
    ¬ ([(0, 0), (0, 0)] : List TileKey).Perm
        (keysOf [((0, 0), ([] : Tile))]) := by
  refine ⟨by decide, ?_⟩
  intro hperm
  have hlen := hperm.length_eq
  simp [keysOf] at hlen

/-- Claim C4, amended: for capacity at least 1 and under the usage
discipline the query engine actually follows (`put` only for absent
keys, `get` only for present keys), the invariant holds: the map never
exceeds `max_tiles` entries and the recency list is a permutation of
the map's keys.  After loading more than `max_tiles` distinct tiles the
cache holds exactly the `max_tiles` most recently loaded keys, newest
first in the recency order. -/
theorem claim4_amended (cap : Nat) (hcap : 1 ≤ cap) :
    (∀ ops : List CacheOp, disciplined (emptyCache cap) ops = true →
      ∃ c, runFrom (emptyCache cap) ops = some c ∧
        c.tile_map.length ≤ cap ∧
        c.access_order.Perm (keysOf c.tile_map)) ∧
    (∀ ks : List TileKey, ks.Nodup → cap < ks.length →
      ∃ c, runFrom (emptyCache cap) (putOps ks) = some c ∧
        c.access_order = ks.reverse.take cap ∧
        (keysOf c.tile_map).Perm (ks.reverse.take cap)) := by
  constructor
  · intro ops hd
    obtain ⟨c, h1, h2, h3⟩ := runFrom_CacheInv ops (emptyCache cap)
      hcap (emptyCache_CacheInv cap) hd
    exact ⟨c, h1, le_of_le_of_eq h2.1 h3, h2.2.1⟩
  · intro ks hnd hlen
    obtain ⟨c, h1, hinv, hmax, hord⟩ := runPuts_spec cap hcap ks hnd
    refine ⟨c, h1, hord, ?_⟩
    have := hinv.2.1
    rw [hord] at this
    exact this.symm

/-- Claim C4, witness: capacity 1, loading the two distinct keys
`(0,0)` then `(1,0)`; the cache retains exactly the most recent key. -/
theorem claim4_witness :
    ∃ c, runFrom (emptyCache 1) (putOps [(0, 0), (1, 0)]) = some c ∧
      c.access_order = ([(0, 0), (1, 0)] : List TileKey).reverse.take 1 ∧
      (keysOf c.tile_map).Perm
        (([(0, 0), (1, 0)] : List TileKey).reverse.take 1) :=
  (claim4_amended 1 (by decide)).2 [(0, 0), (1, 0)] (by decide) (by decide)

/-- Claim C5 (code bug): with `N = 0` input and any `num_threads ≠ 1`,
`parallel_for` clamps the thread count to `min(num_threads, 0) = 0` and
then computes `size / num_threads` — an integer division by zero
(undefined behaviour; in the model, the `divByZero` error), so the
batch call fails instead of returning the empty result that the
synchronous `num_threads = 1` path produces. -/
theorem claim5_div_by_zero :
    parallel_for (batchWorker constFalseQuery [] []) 0 2 1 (allocResult 0) =
      Except.error PFErr.divByZero ∧
    parallel_for (batchWorker constFalseQuery [] []) 0 1 1 (allocResult 0) =
      Except.ok [] ∧
    is_water_batch constFalseQuery [] [] 1 1 = Except.ok [] ∧
    is_water_batch constFalseQuery [] [] 2 1 =
      Except.error BatchErr.dispatchFailure := by
  exact ⟨rfl, rfl, rfl, rfl⟩

/-- Claim C6: the batch query rejects mismatched coordinate lengths
with `SizeMismatch` before doing any other work; with equal lengths it
never reports `SizeMismatch`, and any successful result carries exactly
one boolean slot per input point; the result buffer is allocated as one
`false`-initialized slot per input point. -/
theorem claim6_batch (q : ℚ → ℚ → Option Bool) (lon lat : List ℚ)
    (nt hc : Nat) :
    (lon.length ≠ lat.length →
      is_water_batch q lon lat nt hc = Except.error BatchErr.sizeMismatch) ∧
    (lon.length = lat.length →
      is_water_batch q lon lat nt hc ≠ Except.error BatchErr.sizeMismatch ∧
      ∀ r, is_water_batch q lon lat nt hc = Except.ok r →
        r.length = lon.length) ∧
    allocResult lon.length = List.replicate lon.length false := by
  refine ⟨?_, ?_, rfl⟩
  · intro hne
    unfold is_water_batch
    rw [if_pos hne]
  · intro heq
    constructor
    · unfold is_water_batch
      rw [if_neg (by simp [heq])]
      cases hres : parallel_for (batchWorker q lon lat) lon.length nt hc
          (allocResult lon.length) with
      | ok r => simp
      | error e => simp
    · intro r hr
      unfold is_water_batch at hr
      rw [if_neg (by simp [heq])] at hr
      cases hres : parallel_for (batchWorker q lon lat) lon.length nt hc
          (allocResult lon.length) with
      | ok r' =>
        rw [hres] at hr
        cases hr
        have hlen := parallel_for_preserve (batchWorker q lon lat)
          lon.length nt hc (allocResult lon.length) r
          (fun x => x.length = lon.length)
          (fun s e x x' hx hl => (writeRange_length q lon lat _ x x' hx).trans hl)
          hres (by simp [allocResult])
        exact hlen
      | error e =>
        rw [hres] at hr
        cases hr

/-- Claim C6, witness: mismatched lengths 3 and 2 fail with
`SizeMismatch`; equal lengths 2 and 2 never produce `SizeMismatch`. -/
theorem claim6_witness :
    is_water_batch constFalseQuery [1, 2, 3] [4, 5] 1 1 =
      Except.error BatchErr.sizeMismatch ∧
    is_water_batch constFalseQuery [1, 2] [3, 4] 1 1 ≠
      Except.error BatchErr.sizeMismatch :=
  ⟨(claim6_batch constFalseQuery [1, 2, 3] [4, 5] 1 1).1 (by decide),
   ((claim6_batch constFalseQuery [1, 2] [3, 4] 1 1).2.1 rfl).1⟩

/-- Claim C9: for a fixed raster and tile size, the observable result
of the per-raster point query is the same from ANY two cache states
that are semantically valid (structural invariant plus correct cached
tiles) and share the configured capacity — a cache hit and a cache miss
give the same verdict, so repeated queries for the same point within
one batch call and across calls agree; moreover a successful query
re-establishes both invariants, so the agreement persists along a
worker's whole query sequence. -/
theorem claim9_cache_transparent (ts : Nat) (info : RasterInfo)
    (lon lat : ℚ) (c1 c2 : TileCache) (hinv1 : CacheInv c1)
    (hval1 : ValInv ts info c1) (hinv2 : CacheInv c2)
    (hval2 : ValInv ts info c2) (hcap : c1.max_tiles = c2.max_tiles) :
    Option.map Prod.fst (is_water_raster ts info lon lat c1) =
      Option.map Prod.fst (is_water_raster ts info lon lat c2) ∧
    (∀ b c', is_water_raster ts info lon lat c1 = some (b, c') →
      CacheInv c' ∧ ValInv ts info c' ∧ c'.max_tiles = c1.max_tiles) := by
  refine ⟨?_, fun b c' h =>
    is_water_raster_inv ts info lon lat c1 b c' hinv1 hval1 h⟩
  rw [is_water_raster_fst ts info lon lat c1 hinv1 hval1,
    is_water_raster_fst ts info lon lat c2 hinv2 hval2, hcap]

/-- Claim C9, witness: the hit state `cacheW` (tile preloaded) and the
miss state (fresh empty cache of the same capacity) give the same
observable answer for the same point. -/
theorem claim9_witness :
    Option.map Prod.fst (is_water_raster 2 infoW 1 1 cacheW) =
      Option.map Prod.fst (is_water_raster 2 infoW 1 1 (emptyCache 4)) ∧
    (∀ b c', is_water_raster 2 infoW 1 1 cacheW = some (b, c') →
      CacheInv c' ∧ ValInv 2 infoW c' ∧ c'.max_tiles = cacheW.max_tiles) :=
  claim9_cache_transparent 2 infoW 1 1 cacheW (emptyCache 4)
    cacheW_CacheInv cacheW_ValInv (emptyCache_CacheInv 4)
    (emptyCache_ValInv 2 infoW 4) rfl

end Hydrosheds
